import Mathlib

/-!
Verification of the localgpt voice-pipeline core.

This file gives a shallow embedding, in Lean, of the components of the
voice pipeline that the specification claims talk about:

* `src/voice/playback.rs` — `SequencedPlaybackQueue`
* `src/voice/tts_cache.rs` — `TtsCache` (SQLite table modelled as a row list)
* `src/voice/gateway.rs` — the VC connection state machine and the
  songbird receive configuration
* `src/voice/ssrc_map.rs` — `SsrcUserMap`
* `src/voice/worker.rs` — `PipelineWorker::process_text`
* `src/concurrency/turn_gate.rs` — `TurnGate`
* `src/voice/splitter.rs` — `SentenceSplitter`

Pure Rust functions become Lean functions; stateful structures become
explicit state passing; the SQLite table backing the TTS cache becomes a
list of rows; tokio channels that are only written become the list of
values sent so far.  Theorems about these definitions settle the
specification claims.
-/

set_option maxRecDepth 100000

namespace LocalGpt

/-! ## Sequenced playback queue (`src/voice/playback.rs`) -/

/-- A TTS segment (`TtsSegment` in `src/voice/tts_pipeline.rs`): a sequence
index plus the sentence text.  The `tts_result` audio payload is opaque to
the sequencing logic (it is only moved around, never inspected), so it is
not modelled. -/
structure TtsSegment where
  index : Nat
  text : String
  deriving DecidableEq, Repr

/-- Remove the entry stored under key `k` from the association-list model of
the `HashMap<usize, TtsSegment>` buffer, returning the stored segment and
the remaining buffer.  Models `self.buffer.remove(&self.next_index)`. -/
def bufRemove (k : Nat) : List (Nat × TtsSegment) → Option (TtsSegment × List (Nat × TtsSegment))
  | [] => none
  | (k', s) :: rest =>
    if k' = k then some (s, rest)
    else
      match bufRemove k rest with
      | some (s', rest') => some (s', (k', s) :: rest')
      | none => none

/-- `SequencedPlaybackQueue` state.  The unbounded `tx` channel is modelled
by `emitted`, the list of segments sent so far (the receiver is held by the
consumer, so sends succeed). -/
structure SequencedPlaybackQueue where
  next_index : Nat
  buffer : List (Nat × TtsSegment)
  emitted : List TtsSegment
  deriving Repr

/-- `SequencedPlaybackQueue::new()` — fresh queue expecting index 0. -/
def SequencedPlaybackQueue.new : SequencedPlaybackQueue :=
  { next_index := 0, buffer := [], emitted := [] }

theorem bufRemove_length {k : Nat} :
    ∀ {buf : List (Nat × TtsSegment)} {s : TtsSegment} {buf' : List (Nat × TtsSegment)},
    bufRemove k buf = some (s, buf') → buf'.length < buf.length := by
  intro buf
  induction buf with
  | nil => intro s buf' h; simp [bufRemove] at h
  | cons p rest ih =>
    intro s buf' h
    obtain ⟨k', s₀⟩ := p
    by_cases hk : k' = k
    · simp [bufRemove, hk] at h
      simp [← h.2]
    · simp [bufRemove, hk] at h
      cases hrec : bufRemove k rest with
      | none => rw [hrec] at h; simp at h
      | some pr =>
        obtain ⟨s', rest'⟩ := pr
        rw [hrec] at h
        simp at h
        have := ih hrec
        simp [← h.2]
        omega

/-- The drain loop inside `submit`: after emitting the segment whose index
matched, repeatedly pull consecutively-indexed segments out of the buffer
(`while let Some(next_seg) = self.buffer.remove(&self.next_index)`). -/
def drainBuffer (next : Nat) (buf : List (Nat × TtsSegment)) (em : List TtsSegment) :
    Nat × List (Nat × TtsSegment) × List TtsSegment :=
  match h : bufRemove next buf with
  | some (seg, buf') => drainBuffer (next + 1) buf' (em ++ [seg])
  | none => (next, buf, em)
termination_by buf.length
decreasing_by exact bufRemove_length h

/-- `SequencedPlaybackQueue::submit`: if the segment's index equals
`next_index`, emit it and drain consecutive buffered successors; otherwise
insert it into the buffer (`HashMap::insert` overwrites an entry with the
same key). -/
def SequencedPlaybackQueue.submit (q : SequencedPlaybackQueue) (seg : TtsSegment) :
    SequencedPlaybackQueue :=
  if seg.index = q.next_index then
    let r := drainBuffer (q.next_index + 1) q.buffer (q.emitted ++ [seg])
    { next_index := r.1, buffer := r.2.1, emitted := r.2.2 }
  else
    { q with buffer := (seg.index, seg) :: q.buffer.filter (fun p => p.1 != seg.index) }

/-- `SequencedPlaybackQueue::reset` — clear all state and install a fresh
output channel. -/
def SequencedPlaybackQueue.reset (_q : SequencedPlaybackQueue) : SequencedPlaybackQueue :=
  SequencedPlaybackQueue.new

/-- Submit a whole arrival sequence, in arrival order. -/
def SequencedPlaybackQueue.submitAll (q : SequencedPlaybackQueue) (segs : List TtsSegment) :
    SequencedPlaybackQueue :=
  segs.foldl SequencedPlaybackQueue.submit q

/-- Invariant tying the emission history to the queue state: the indices
emitted so far are exactly `0, 1, …, next_index − 1` in that order, and
every buffered segment is stored under its own index. -/
def QueueInv (q : SequencedPlaybackQueue) : Prop :=
  q.emitted.map TtsSegment.index = List.range q.next_index ∧
    ∀ p ∈ q.buffer, (p.2).index = p.1

theorem bufRemove_mem {k : Nat} :
    ∀ {buf : List (Nat × TtsSegment)} {s : TtsSegment} {buf' : List (Nat × TtsSegment)},
    bufRemove k buf = some (s, buf') →
      (k, s) ∈ buf ∧ ∀ p ∈ buf', p ∈ buf := by
  intro buf
  induction buf with
  | nil => intro s buf' h; simp [bufRemove] at h
  | cons p rest ih =>
    intro s buf' h
    obtain ⟨k', s₀⟩ := p
    by_cases hk : k' = k
    · simp [bufRemove, hk] at h
      subst hk
      constructor
      · simp [h.1]
      · intro q hq
        rw [← h.2] at hq
        exact List.mem_cons_of_mem _ hq
    · simp [bufRemove, hk] at h
      cases hrec : bufRemove k rest with
      | none => rw [hrec] at h; simp at h
      | some pr =>
        obtain ⟨s', rest'⟩ := pr
        rw [hrec] at h
        simp at h
        obtain ⟨hmem, hsub⟩ := ih hrec
        constructor
        · rw [← h.1]; exact List.mem_cons_of_mem _ hmem
        · intro q hq
          rw [← h.2] at hq
          rcases List.mem_cons.mp hq with hq | hq
          · exact hq ▸ List.mem_cons_self _ _
          · exact List.mem_cons_of_mem _ (hsub q hq)

theorem drainBuffer_inv (next : Nat) (buf : List (Nat × TtsSegment)) (em : List TtsSegment)
    (hem : em.map TtsSegment.index = List.range next)
    (hbuf : ∀ p ∈ buf, (p.2).index = p.1) :
    (drainBuffer next buf em).2.2.map TtsSegment.index
        = List.range (drainBuffer next buf em).1 ∧
      ∀ p ∈ (drainBuffer next buf em).2.1, (p.2).index = p.1 := by
  rw [drainBuffer]
  split
  case _ seg buf' h =>
    have hmem := bufRemove_mem h
    have hidx : seg.index = next := hbuf (next, seg) hmem.1
    have hem' : (em ++ [seg]).map TtsSegment.index = List.range (next + 1) := by
      simp [hem, hidx, List.range_succ]
    have hbuf' : ∀ p ∈ buf', (p.2).index = p.1 := fun p hp => hbuf p (hmem.2 p hp)
    exact drainBuffer_inv (next + 1) buf' (em ++ [seg]) hem' hbuf'
  case _ h => exact ⟨hem, hbuf⟩
termination_by buf.length
decreasing_by exact bufRemove_length (by assumption)

theorem submit_inv (q : SequencedPlaybackQueue) (seg : TtsSegment) (hq : QueueInv q) :
    QueueInv (q.submit seg) := by
  obtain ⟨hem, hbuf⟩ := hq
  unfold SequencedPlaybackQueue.submit
  by_cases hidx : seg.index = q.next_index
  · simp only [hidx, if_true]
    have hem' : (q.emitted ++ [seg]).map TtsSegment.index = List.range (q.next_index + 1) := by
      simp [hem, hidx, List.range_succ]
    exact drainBuffer_inv (q.next_index + 1) q.buffer (q.emitted ++ [seg]) hem' hbuf
  · simp only [hidx, if_false]
    refine ⟨hem, ?_⟩
    intro p hp
    rcases List.mem_cons.mp hp with hp | hp
    · simp [hp]
    · exact hbuf p (List.mem_filter.mp hp).1

theorem submitAll_inv (segs : List TtsSegment) :
    ∀ (q : SequencedPlaybackQueue), QueueInv q → QueueInv (q.submitAll segs) := by
  induction segs with
  | nil => intro q hq; exact hq
  | cons s rest ih =>
    intro q hq
    exact ih (q.submit s) (submit_inv q s hq)

theorem queueInv_new : QueueInv SequencedPlaybackQueue.new := by
  constructor <;> simp [SequencedPlaybackQueue.new]

/-- **C1.** For every arrival sequence submitted to a fresh
`SequencedPlaybackQueue`, the indices of the emitted segments are exactly
`0, 1, …, k−1` in that order — a contiguous prefix of the naturals emitted
in strictly increasing order, so no index is emitted before its
predecessor.  In particular, submitting indices 2, 1, 0 in that arrival
order emits nothing until index 0 arrives, and then emits 0, 1, 2 in
order. -/
theorem claim_C1_playback_contiguous_order :
    (∀ segs : List TtsSegment,
      (SequencedPlaybackQueue.new.submitAll segs).emitted.map TtsSegment.index
        = List.range (SequencedPlaybackQueue.new.submitAll segs).emitted.length) ∧
    (SequencedPlaybackQueue.new.submitAll
        [⟨2, "c"⟩, ⟨1, "b"⟩]).emitted = [] ∧
    (SequencedPlaybackQueue.new.submitAll
        [⟨2, "c"⟩, ⟨1, "b"⟩, ⟨0, "a"⟩]).emitted
      = [⟨0, "a"⟩, ⟨1, "b"⟩, ⟨2, "c"⟩] := by
  refine ⟨?_, ?_, ?_⟩
  · intro segs
    have h := (submitAll_inv segs SequencedPlaybackQueue.new queueInv_new).1
    have hlen : (SequencedPlaybackQueue.new.submitAll segs).emitted.length
        = (SequencedPlaybackQueue.new.submitAll segs).next_index := by
      have := congrArg List.length h
      simpa using this
    rw [h, hlen]
  · simp [SequencedPlaybackQueue.submitAll, SequencedPlaybackQueue.submit,
      SequencedPlaybackQueue.new, drainBuffer, bufRemove]
  · simp [SequencedPlaybackQueue.submitAll, SequencedPlaybackQueue.submit,
      SequencedPlaybackQueue.new, drainBuffer, bufRemove]

/-! ## TTS cache (`src/voice/tts_cache.rs`) -/

/-- Synthesis parameters that form the cache key (`TtsCacheParams`).
`generate_cache_key` hashes the canonical JSON of exactly this tuple with
SHA-256; the hash is modelled by keying rows on the tuple itself (hash
collisions are out of scope).  The `REAL` fields `speed` and `pitch` are
opaque to the cache logic and modelled as integers. -/
structure TtsCacheParams where
  text : String
  model : String
  speed : Int
  style_id : Option Int
  speaker_id : Option Int
  pitch : Option Int
  deriving DecidableEq, Repr

/-- A cached entry returned on cache hit (`CachedAudio`). -/
structure CachedAudio where
  audio_data : List Nat
  audio_format : String
  duration_ms : Int
  deriving DecidableEq, Repr

/-- One row of the `tts_cache` SQLite table.  `audio_data` is the BLOB as a
byte list.  The `created_at` / `last_used_at` datetime columns are written
but never read by any logic under claim (eviction orders by `access_seq`),
so they are not modelled. -/
structure CacheRow where
  cache_key : TtsCacheParams
  audio_format : String
  audio_data : List Nat
  duration_ms : Int
  use_count : Nat
  access_seq : Nat
  deriving DecidableEq, Repr

/-- The cache: the table rows plus the configured byte limit
(`max_total_bytes`). -/
structure TtsCache where
  rows : List CacheRow
  max_total_bytes : Nat
  deriving DecidableEq, Repr

/-- A cache opened over an empty database with a byte limit (the Rust
constructor takes megabytes and multiplies by 1024²; the tests construct
the struct directly with a byte limit, as we do here). -/
def TtsCache.openEmpty (limit_bytes : Nat) : TtsCache :=
  { rows := [], max_total_bytes := limit_bytes }

/-- `SELECT COALESCE(MAX(access_seq), 0) FROM tts_cache`. -/
def maxAccessSeq (rows : List CacheRow) : Nat :=
  rows.foldl (fun m r => max m r.access_seq) 0

/-- `SELECT COALESCE(SUM(length(audio_data)), 0) FROM tts_cache`. -/
def totalSizeBytes (rows : List CacheRow) : Nat :=
  (rows.map (fun r => r.audio_data.length)).sum

/-- `TtsCache::total_size_bytes`. -/
def TtsCache.total_size_bytes (c : TtsCache) : Nat := totalSizeBytes c.rows

/-- `TtsCache::entry_count` (`SELECT COUNT(*) FROM tts_cache`). -/
def TtsCache.entry_count (c : TtsCache) : Nat := c.rows.length

/-- The `access_seq` of the row `ORDER BY access_seq ASC LIMIT 1` would
select from the non-empty table `r :: rest`. -/
def minSeqVal (r : CacheRow) (rest : List CacheRow) : Nat :=
  rest.foldl (fun m x => min m x.access_seq) r.access_seq

/-- `DELETE FROM tts_cache WHERE id = (SELECT id … ORDER BY access_seq ASC
LIMIT 1)` — remove the first row carrying the given `access_seq`. -/
def removeFirstWithSeq (s : Nat) : List CacheRow → List CacheRow
  | [] => []
  | r :: rest => if r.access_seq = s then rest else r :: removeFirstWithSeq s rest

/-- The body of `TtsCache::evict_if_needed`: while the total audio size
exceeds the limit, delete the row with the smallest `access_seq`; stop when
within the limit or when the delete removes nothing (empty table).  Each
iteration of the Rust loop deletes exactly one row, so running the loop
with `rows.length` as structural fuel is exact: fuel can only run out on an
empty table, where the loop would stop anyway. -/
def evictLoop : Nat → Nat → List CacheRow → List CacheRow
  | 0, _, rows => rows
  | n + 1, limit, rows =>
    if totalSizeBytes rows ≤ limit then rows
    else
      match rows with
      | [] => []
      | r :: rest => evictLoop n limit
          (removeFirstWithSeq (minSeqVal r rest) (r :: rest))

/-- `TtsCache::evict_if_needed`. -/
def evictIfNeeded (limit : Nat) (rows : List CacheRow) : List CacheRow :=
  evictLoop rows.length limit rows

/-- `TtsCache::insert`: `INSERT OR REPLACE` keyed on the cache key, with
`access_seq = COALESCE(MAX(access_seq), 0) + 1` evaluated over the table at
insert time and `use_count` defaulting to 1, followed by the eviction
pass. -/
def TtsCache.insert (c : TtsCache) (params : TtsCacheParams) (audio_format : String)
    (audio_data : List Nat) (duration_ms : Int) : TtsCache :=
  let newRow : CacheRow :=
    { cache_key := params, audio_format := audio_format, audio_data := audio_data,
      duration_ms := duration_ms, use_count := 1,
      access_seq := maxAccessSeq c.rows + 1 }
  let rows' := newRow :: c.rows.filter (fun r => r.cache_key != params)
  { c with rows := evictIfNeeded c.max_total_bytes rows' }

/-- `TtsCache::lookup`: select by key; on hit, bump `use_count` and set
`access_seq` to `MAX(access_seq) + 1` over the table, and return the stored
audio.  Returns the hit (if any) together with the updated cache. -/
def TtsCache.lookup (c : TtsCache) (params : TtsCacheParams) :
    Option CachedAudio × TtsCache :=
  match c.rows.find? (fun r => r.cache_key == params) with
  | some r =>
    let rows' := c.rows.map (fun x =>
      if x.cache_key == params then
        { x with use_count := x.use_count + 1, access_seq := maxAccessSeq c.rows + 1 }
      else x)
    (some { audio_data := r.audio_data, audio_format := r.audio_format,
            duration_ms := r.duration_ms },
     { c with rows := rows' })
  | none => (none, c)

theorem foldl_min_le_init (rest : List CacheRow) :
    ∀ a : Nat, rest.foldl (fun m x => min m x.access_seq) a ≤ a := by
  induction rest with
  | nil => intro a; simp
  | cons x xs ih =>
    intro a
    calc (x :: xs).foldl (fun m x => min m x.access_seq) a
        = xs.foldl (fun m x => min m x.access_seq) (min a x.access_seq) := rfl
      _ ≤ min a x.access_seq := ih _
      _ ≤ a := min_le_left _ _

theorem foldl_min_le_mem (rest : List CacheRow) :
    ∀ (a : Nat) (x : CacheRow), x ∈ rest →
      rest.foldl (fun m x => min m x.access_seq) a ≤ x.access_seq := by
  induction rest with
  | nil => intro a x hx; simp at hx
  | cons y ys ih =>
    intro a x hx
    rcases List.mem_cons.mp hx with h | h
    · subst h
      calc (x :: ys).foldl (fun m x => min m x.access_seq) a
          = ys.foldl (fun m x => min m x.access_seq) (min a x.access_seq) := rfl
        _ ≤ min a x.access_seq := foldl_min_le_init _ _
        _ ≤ x.access_seq := min_le_right _ _
    · exact ih _ x h

theorem foldl_min_attained (rest : List CacheRow) :
    ∀ a : Nat, rest.foldl (fun m x => min m x.access_seq) a = a ∨
      ∃ x ∈ rest, rest.foldl (fun m x => min m x.access_seq) a = x.access_seq := by
  induction rest with
  | nil => intro a; left; rfl
  | cons y ys ih =>
    intro a
    have hstep : (y :: ys).foldl (fun m x => min m x.access_seq) a
        = ys.foldl (fun m x => min m x.access_seq) (min a y.access_seq) := rfl
    rcases ih (min a y.access_seq) with h | ⟨x, hx, hval⟩
    · rcases min_choice a y.access_seq with hm | hm
      · left; rw [hstep, h, hm]
      · right; exact ⟨y, List.mem_cons_self _ _, by rw [hstep, h, hm]⟩
    · right; exact ⟨x, List.mem_cons_of_mem _ hx, by rw [hstep, hval]⟩

theorem minSeqVal_le (r : CacheRow) (rest : List CacheRow) :
    ∀ x ∈ r :: rest, minSeqVal r rest ≤ x.access_seq := by
  intro x hx
  rcases List.mem_cons.mp hx with h | h
  · subst h; exact foldl_min_le_init rest _
  · exact foldl_min_le_mem rest _ x h

theorem minSeqVal_attained (r : CacheRow) (rest : List CacheRow) :
    ∃ x ∈ r :: rest, x.access_seq = minSeqVal r rest := by
  rcases foldl_min_attained rest r.access_seq with h | ⟨x, hx, hval⟩
  · exact ⟨r, List.mem_cons_self _ _, h.symm⟩
  · exact ⟨x, List.mem_cons_of_mem _ hx, hval.symm⟩

theorem removeFirstWithSeq_sublist (s : Nat) :
    ∀ l : List CacheRow, (removeFirstWithSeq s l).Sublist l := by
  intro l
  induction l with
  | nil => simp [removeFirstWithSeq]
  | cons r rest ih =>
    by_cases h : r.access_seq = s
    · simp [removeFirstWithSeq, h]
    · simpa [removeFirstWithSeq, h] using List.Sublist.cons₂ r ih

theorem removeFirstWithSeq_length (s : Nat) :
    ∀ l : List CacheRow, (∃ x ∈ l, x.access_seq = s) →
      (removeFirstWithSeq s l).length + 1 = l.length := by
  intro l
  induction l with
  | nil => intro h; simp at h
  | cons r rest ih =>
    intro h
    by_cases hr : r.access_seq = s
    · simp [removeFirstWithSeq, hr]
    · obtain ⟨x, hx, hxs⟩ := h
      rcases List.mem_cons.mp hx with hcase | hcase
      · exact absurd (hcase ▸ hxs) hr
      · simp only [removeFirstWithSeq, hr, if_false, List.length_cons]
        rw [ih ⟨x, hcase, hxs⟩]

theorem mem_removeFirstWithSeq_of_ne (s : Nat) :
    ∀ (l : List CacheRow) (x : CacheRow), x ∈ l → x.access_seq ≠ s →
      x ∈ removeFirstWithSeq s l := by
  intro l
  induction l with
  | nil => intro x hx; simp at hx
  | cons r rest ih =>
    intro x hx hne
    by_cases hr : r.access_seq = s
    · simp only [removeFirstWithSeq, hr, if_true]
      rcases List.mem_cons.mp hx with hcase | hcase
      · exact absurd (hcase ▸ hne) (by simp [hr])
      · exact hcase
    · simp only [removeFirstWithSeq, hr, if_false]
      rcases List.mem_cons.mp hx with hcase | hcase
      · exact hcase ▸ List.mem_cons_self _ _
      · exact List.mem_cons_of_mem _ (ih x hcase hne)

theorem evictLoop_nil (fuel limit : Nat) : evictLoop fuel limit [] = [] := by
  cases fuel with
  | zero => rfl
  | succ n => simp [evictLoop, totalSizeBytes]

theorem evictLoop_total_le (fuel : Nat) :
    ∀ (limit : Nat) (rows : List CacheRow), rows.length ≤ fuel →
      totalSizeBytes (evictLoop fuel limit rows) ≤ limit := by
  induction fuel with
  | zero =>
    intro limit rows hlen
    have : rows = [] := List.length_eq_zero.mp (Nat.le_zero.mp hlen)
    subst this
    simp [evictLoop, totalSizeBytes]
  | succ n ih =>
    intro limit rows hlen
    match rows with
    | [] => simp [evictLoop, totalSizeBytes]
    | r :: rest =>
      rw [evictLoop]
      by_cases hle : totalSizeBytes (r :: rest) ≤ limit
      · simpa [hle] using hle
      · simp only [hle, if_false]
        have hrem := removeFirstWithSeq_length (minSeqVal r rest) (r :: rest)
          (minSeqVal_attained r rest)
        have hlen' : (removeFirstWithSeq (minSeqVal r rest) (r :: rest)).length ≤ n := by
          simp only [List.length_cons] at hlen hrem
          omega
        exact ih limit (removeFirstWithSeq (minSeqVal r rest) (r :: rest)) hlen'

theorem evictLoop_sublist (fuel : Nat) :
    ∀ (limit : Nat) (rows : List CacheRow),
      (evictLoop fuel limit rows).Sublist rows := by
  induction fuel with
  | zero => intro limit rows; exact List.Sublist.refl rows
  | succ n ih =>
    intro limit rows
    match rows with
    | [] => simp [evictLoop, totalSizeBytes]
    | r :: rest =>
      rw [evictLoop]
      by_cases hle : totalSizeBytes (r :: rest) ≤ limit
      · simp [hle]
      · simp only [hle, if_false]
        have h1 := ih limit (removeFirstWithSeq (minSeqVal r rest) (r :: rest))
        have h2 := removeFirstWithSeq_sublist (minSeqVal r rest) (r :: rest)
        exact h1.trans h2

theorem evictLoop_deleted_le (fuel : Nat) :
    ∀ (limit : Nat) (rows : List CacheRow) (r' : CacheRow),
      r' ∈ rows → r' ∉ evictLoop fuel limit rows →
      ∀ r ∈ evictLoop fuel limit rows, r'.access_seq ≤ r.access_seq := by
  induction fuel with
  | zero =>
    intro limit rows r' hmem hnot
    exact absurd hmem hnot
  | succ n ih =>
    intro limit rows r' hmem hnot r hr
    match rows with
    | [] => simp at hmem
    | r₀ :: rest =>
      rw [evictLoop] at hnot hr
      by_cases hle : totalSizeBytes (r₀ :: rest) ≤ limit
      · simp only [hle, if_true] at hnot
        exact absurd hmem hnot
      · simp only [hle, if_false] at hnot hr
        by_cases hr' : r' ∈ removeFirstWithSeq (minSeqVal r₀ rest) (r₀ :: rest)
        · exact ih limit _ r' hr' hnot r hr
        · have hseq : r'.access_seq = minSeqVal r₀ rest := by
            by_contra hne
            exact hr' (mem_removeFirstWithSeq_of_ne _ _ r' hmem hne)
          have hrmem : r ∈ r₀ :: rest :=
            (removeFirstWithSeq_sublist _ _).subset ((evictLoop_sublist n limit _).subset hr)
          rw [hseq]
          exact minSeqVal_le r₀ rest r hrmem

theorem mem_total_le (rows : List CacheRow) (b : CacheRow) (hb : b ∈ rows) :
    b.audio_data.length ≤ totalSizeBytes rows :=
  List.single_le_sum (fun x _ => Nat.zero_le x) _
    (List.mem_map_of_mem (fun r => r.audio_data.length) hb)

theorem evictLoop_empty_of_oversize (fuel : Nat) :
    ∀ (limit : Nat) (rows : List CacheRow) (b : CacheRow),
      rows.length ≤ fuel → b ∈ rows → limit < b.audio_data.length →
      (∀ r ∈ rows, r ≠ b → r.access_seq < b.access_seq) →
      evictLoop fuel limit rows = [] := by
  induction fuel with
  | zero =>
    intro limit rows b hlen hb _ _
    have : rows = [] := List.length_eq_zero.mp (Nat.le_zero.mp hlen)
    subst this
    simp at hb
  | succ n ih =>
    intro limit rows b hlen hb hbig hdom
    match rows with
    | [] => simp at hb
    | r₀ :: rest =>
      rw [evictLoop]
      have hgt : ¬ totalSizeBytes (r₀ :: rest) ≤ limit := by
        have := mem_total_le (r₀ :: rest) b hb
        omega
      simp only [hgt, if_false]
      have hrem := removeFirstWithSeq_length (minSeqVal r₀ rest) (r₀ :: rest)
        (minSeqVal_attained r₀ rest)
      have hlen' : (removeFirstWithSeq (minSeqVal r₀ rest) (r₀ :: rest)).length ≤ n := by
        simp only [List.length_cons] at hlen hrem
        omega
      by_cases hbmem : b ∈ removeFirstWithSeq (minSeqVal r₀ rest) (r₀ :: rest)
      · refine ih limit _ b hlen' hbmem hbig ?_
        intro r hr hne
        exact hdom r ((removeFirstWithSeq_sublist _ _).subset hr) hne
      · have hempty : removeFirstWithSeq (minSeqVal r₀ rest) (r₀ :: rest) = [] := by
          rw [List.eq_nil_iff_forall_not_mem]
          intro r hr
          have hrrows : r ∈ r₀ :: rest := (removeFirstWithSeq_sublist _ _).subset hr
          have hne : r ≠ b := fun hEq => hbmem (hEq ▸ hr)
          have hlt : r.access_seq < b.access_seq := hdom r hrrows hne
          have hbseq : b.access_seq = minSeqVal r₀ rest := by
            by_contra hne'
            exact hbmem (mem_removeFirstWithSeq_of_ne _ _ b hb hne')
          have := minSeqVal_le r₀ rest r hrrows
          omega
        rw [hempty, evictLoop_nil]

theorem foldl_max_init_le (l : List CacheRow) :
    ∀ a : Nat, a ≤ l.foldl (fun m r => max m r.access_seq) a := by
  induction l with
  | nil => intro a; simp
  | cons x xs ih =>
    intro a
    calc a ≤ max a x.access_seq := le_max_left _ _
      _ ≤ xs.foldl (fun m r => max m r.access_seq) (max a x.access_seq) := ih _
      _ = (x :: xs).foldl (fun m r => max m r.access_seq) a := rfl

theorem foldl_max_mem_le (l : List CacheRow) :
    ∀ (a : Nat) (x : CacheRow), x ∈ l →
      x.access_seq ≤ l.foldl (fun m r => max m r.access_seq) a := by
  induction l with
  | nil => intro a x hx; simp at hx
  | cons y ys ih =>
    intro a x hx
    rcases List.mem_cons.mp hx with h | h
    · subst h
      calc x.access_seq ≤ max a x.access_seq := le_max_right _ _
        _ ≤ ys.foldl (fun m r => max m r.access_seq) (max a x.access_seq) :=
            foldl_max_init_le ys _
        _ = (x :: ys).foldl (fun m r => max m r.access_seq) a := rfl
    · exact ih _ x h

theorem le_maxAccessSeq (rows : List CacheRow) (r : CacheRow) (hr : r ∈ rows) :
    r.access_seq ≤ maxAccessSeq rows :=
  foldl_max_mem_le rows 0 r hr

/-- Apply a whole sequence of inserts in order. -/
def TtsCache.insertAll (c : TtsCache) (ops : List (TtsCacheParams × String × List Nat × Int)) :
    TtsCache :=
  ops.foldl (fun c op => c.insert op.1 op.2.1 op.2.2.1 op.2.2.2) c

theorem insert_max_total_bytes (c : TtsCache) (p : TtsCacheParams) (fmt : String)
    (data : List Nat) (dur : Int) :
    (c.insert p fmt data dur).max_total_bytes = c.max_total_bytes := rfl

theorem insert_total_le (c : TtsCache) (p : TtsCacheParams) (fmt : String)
    (data : List Nat) (dur : Int) :
    (c.insert p fmt data dur).total_size_bytes ≤ c.max_total_bytes := by
  unfold TtsCache.insert TtsCache.total_size_bytes evictIfNeeded
  exact evictLoop_total_le _ _ _ (le_refl _)

/-- **C4.** At the end of every `TtsCache::insert` (each of which runs the
eviction pass), the total byte size of all cached `audio_data` is at most
the configured limit — stated both for a single insert on an arbitrary
cache state (hence for every insert inside every sequence) and for any
non-empty sequence of inserts applied to a freshly opened cache. -/
theorem claim_C4_cache_size_invariant :
    (∀ (c : TtsCache) (p : TtsCacheParams) (fmt : String) (data : List Nat) (dur : Int),
      (c.insert p fmt data dur).total_size_bytes ≤ c.max_total_bytes) ∧
    (∀ (limit : Nat) (op : TtsCacheParams × String × List Nat × Int)
       (ops : List (TtsCacheParams × String × List Nat × Int)),
      ((TtsCache.openEmpty limit).insertAll (op :: ops)).total_size_bytes ≤ limit) := by
  constructor
  · exact insert_total_le
  · intro limit op ops
    suffices h : ∀ (ops : List (TtsCacheParams × String × List Nat × Int))
        (op : TtsCacheParams × String × List Nat × Int) (c : TtsCache),
        (c.insertAll (op :: ops)).total_size_bytes ≤ c.max_total_bytes by
      exact h ops op (TtsCache.openEmpty limit)
    intro ops
    induction ops with
    | nil => intro op c; exact insert_total_le c op.1 op.2.1 op.2.2.1 op.2.2.2
    | cons op₂ rest ih =>
      intro op c
      have := ih op₂ (c.insert op.1 op.2.1 op.2.2.1 op.2.2.2)
      simpa [TtsCache.insertAll, insert_max_total_bytes] using this

/-- Parameters used in the cache scenarios (the Rust tests' `test_params`:
only the text varies). -/
def demoParams (t : String) : TtsCacheParams :=
  { text := t, model := "test-model", speed := 1, style_id := none,
    speaker_id := none, pitch := none }

/-- A 50-byte audio blob. -/
def demoAudio50 : List Nat := List.replicate 50 0

/-- The cache state of the LRU scenario: limit 100 B; insert A (50 B),
insert B (50 B), lookup A, insert C (50 B). -/
def demoCacheLru : TtsCache :=
  (((((TtsCache.openEmpty 100).insert (demoParams "a") "raw" demoAudio50 10).insert
      (demoParams "b") "raw" demoAudio50 10).lookup (demoParams "a")).2).insert
    (demoParams "c") "raw" demoAudio50 10

/-- **C5.** Eviction repeatedly deletes the row with the smallest
`access_seq` while the total audio size exceeds the limit (every deleted
row's `access_seq` is at most every surviving row's, survivors are a
sublist of the input, and the pass always ends with the total within the
limit); and because `lookup` bumps the hit row's `access_seq` to max + 1,
the scenario limit = 100 B, insert A (50 B), insert B (50 B), lookup A,
insert C (50 B) ends with A and C present and B evicted. -/
theorem claim_C5_lru_eviction :
    (∀ (limit : Nat) (rows : List CacheRow),
      totalSizeBytes (evictIfNeeded limit rows) ≤ limit ∧
      (evictIfNeeded limit rows).Sublist rows) ∧
    (∀ (limit : Nat) (rows : List CacheRow) (r' : CacheRow),
      r' ∈ rows → r' ∉ evictIfNeeded limit rows →
      ∀ r ∈ evictIfNeeded limit rows, r'.access_seq ≤ r.access_seq) ∧
    (demoCacheLru.entry_count = 2 ∧
      (demoCacheLru.lookup (demoParams "a")).1.isSome = true ∧
      (demoCacheLru.lookup (demoParams "c")).1.isSome = true ∧
      (demoCacheLru.lookup (demoParams "b")).1 = none ∧
      demoCacheLru.total_size_bytes ≤ 100) := by
  refine ⟨?_, ?_, ?_⟩
  · intro limit rows
    exact ⟨evictLoop_total_le _ _ _ (le_refl _), evictLoop_sublist _ _ _⟩
  · intro limit rows r' hmem hnot r hr
    exact evictLoop_deleted_le _ _ _ r' hmem hnot r hr
  · refine ⟨?_, ?_, ?_, ?_, ?_⟩ <;> decide

/-- **C10.** A single insert whose `audio_data` alone exceeds the byte
limit leaves the cache empty: the eviction pass run by that insert deletes
every row including the just-inserted one (the new row carries the largest
`access_seq`, so all older rows are deleted first, and the new row, still
over the limit on its own, is then deleted too); `entry_count` is 0 and an
immediately following lookup of the same parameters returns `None`. -/
theorem claim_C10_oversized_insert (c : TtsCache) (p : TtsCacheParams) (fmt : String)
    (data : List Nat) (dur : Int) (h : c.max_total_bytes < data.length) :
    (c.insert p fmt data dur).rows = [] ∧
      (c.insert p fmt data dur).entry_count = 0 ∧
      ((c.insert p fmt data dur).lookup p).1 = none := by
  have hempty : (c.insert p fmt data dur).rows = [] := by
    unfold TtsCache.insert evictIfNeeded
    refine evictLoop_empty_of_oversize _ _ _
      { cache_key := p, audio_format := fmt, audio_data := data,
        duration_ms := dur, use_count := 1, access_seq := maxAccessSeq c.rows + 1 }
      (le_refl _) (List.mem_cons_self _ _) h ?_
    intro r hr hne
    rcases List.mem_cons.mp hr with hcase | hcase
    · exact absurd hcase hne
    · have : r ∈ c.rows := List.mem_of_mem_filter hcase
      have := le_maxAccessSeq c.rows r this
      simp only []
      omega
  refine ⟨hempty, ?_, ?_⟩
  · simp [TtsCache.entry_count, hempty]
  · simp [TtsCache.lookup, hempty]

/-- Witness for C10: inserting a 150-byte blob into an empty cache with a
100-byte limit leaves the cache empty and the immediate lookup missing. -/
theorem claim_C10_witness :
    (TtsCache.openEmpty 100).max_total_bytes < (List.replicate 150 (0 : Nat)).length ∧
      (((TtsCache.openEmpty 100).insert (demoParams "big") "raw"
          (List.replicate 150 0) 10).rows = [] ∧
        ((TtsCache.openEmpty 100).insert (demoParams "big") "raw"
          (List.replicate 150 0) 10).entry_count = 0 ∧
        (((TtsCache.openEmpty 100).insert (demoParams "big") "raw"
          (List.replicate 150 0) 10).lookup (demoParams "big")).1 = none) :=
  ⟨by decide,
    claim_C10_oversized_insert (TtsCache.openEmpty 100) (demoParams "big") "raw"
      (List.replicate 150 0) 10 (by decide)⟩

/-! ## Voice gateway state machine (`src/voice/gateway.rs`) -/

/-- `VcConnectionState` — the per-guild connection state.  `Instant`
timestamps are modelled as natural numbers; they are carried but never
inspected by the transition validation. -/
inductive VcConnectionState where
  | Disconnected : VcConnectionState
  | Connecting (started_at : Nat) (guild_id : Nat) (channel_id : Nat) : VcConnectionState
  | Connected (guild_id : Nat) (channel_id : Nat) (connected_at : Nat) : VcConnectionState
  | Reconnecting (guild_id : Nat) (channel_id : Nat) (attempt : Nat) (max_attempts : Nat)
      (last_attempt_at : Nat) : VcConnectionState
  deriving DecidableEq, Repr

/-- The `match (&current, &new_state)` validation inside
`VoiceGateway::transition`, transcribed case for case. -/
def validTransition : VcConnectionState → VcConnectionState → Bool
  | .Disconnected, .Connecting .. => true
  | .Connecting .., .Connected .. => true
  | .Connecting .., .Disconnected => true
  | .Connected .., .Disconnected => true
  | .Connected .., .Reconnecting .. => true
  | .Reconnecting .., .Connected .. => true
  | .Reconnecting .., .Disconnected => true
  | _, _ => false

/-- The per-guild `connection_states` DashMap, modelled as an association
list with first-match lookup (`insert` prepends, which realises the same
map since lookup returns the first match). -/
abbrev GuildStates := List (Nat × VcConnectionState)

def lookupGuild : GuildStates → Nat → Option VcConnectionState
  | [], _ => none
  | (g, v) :: rest, g' => if g = g' then some v else lookupGuild rest g'

def insertGuild (s : GuildStates) (g : Nat) (v : VcConnectionState) : GuildStates :=
  (g, v) :: s

/-- `VoiceGateway::get_state` and the read inside `transition`: a guild
with no recorded state counts as `Disconnected`
(`.unwrap_or(VcConnectionState::Disconnected)`). -/
def getState (s : GuildStates) (g : Nat) : VcConnectionState :=
  (lookupGuild s g).getD .Disconnected

/-- `VoiceGateway::transition`: validate against the current state; on an
invalid pair bail with an error, leaving the map untouched; otherwise store
the new state. -/
def transition (s : GuildStates) (g : Nat) (new_state : VcConnectionState) :
    Except String GuildStates :=
  let current := getState s g
  if validTransition current new_state then .ok (insertGuild s g new_state)
  else .error "Invalid VC state transition"

/-- Apply one transition request the way the gateway's callers do: an `Err`
is logged and otherwise ignored (`let _ = self.transition(…)`), so the map
is unchanged on rejection. -/
def applyTransition (s : GuildStates) (req : Nat × VcConnectionState) : GuildStates :=
  match transition s req.1 req.2 with
  | .ok s' => s'
  | .error _ => s

/-- Constructor tag of a connection state (the validation never inspects
payloads). -/
inductive StateTag where
  | disconnected | connecting | connected | reconnecting
  deriving DecidableEq, Repr

def tagOf : VcConnectionState → StateTag
  | .Disconnected => .disconnected
  | .Connecting .. => .connecting
  | .Connected .. => .connected
  | .Reconnecting .. => .reconnecting

/-- Modelled from the spec: the seven validated transitions that claim C6
enumerates (Disconnected→Connecting, Connecting→Connected,
Connecting→Disconnected, Connected→Disconnected, Connected→Reconnecting,
Reconnecting→Connected, Reconnecting→Disconnected). -/
def specValidPair : StateTag → StateTag → Bool
  | .disconnected, .connecting => true
  | .connecting, .connected => true
  | .connecting, .disconnected => true
  | .connected, .disconnected => true
  | .connected, .reconnecting => true
  | .reconnecting, .connected => true
  | .reconnecting, .disconnected => true
  | _, _ => false

theorem validTransition_eq_spec (a b : VcConnectionState) :
    validTransition a b = specValidPair (tagOf a) (tagOf b) := by
  cases a <;> cases b <;> rfl

theorem lookupGuild_insert_self (s : GuildStates) (g : Nat) (v : VcConnectionState) :
    lookupGuild (insertGuild s g v) g = some v := by
  simp [insertGuild, lookupGuild]

theorem lookupGuild_insert_ne (s : GuildStates) (g g' : Nat) (v : VcConnectionState)
    (h : g ≠ g') : lookupGuild (insertGuild s g v) g' = lookupGuild s g' := by
  simp [insertGuild, lookupGuild, h]

/-- **C6.** A requested transition succeeds if and only if the pair
(current tag, new tag) is in the claim's enumerated relation (a guild with
no recorded state counting as Disconnected); every other request is
rejected with an error that leaves the stored states unchanged; and hence
each observed change of a guild's state steps along the validated relation,
making every guild's state history a path in it. -/
theorem claim_C6_gateway_transition_relation :
    (∀ (s : GuildStates) (g : Nat) (ns : VcConnectionState),
      (transition s g ns).isOk = specValidPair (tagOf (getState s g)) (tagOf ns)) ∧
    (∀ (s : GuildStates) (g : Nat) (ns : VcConnectionState),
      applyTransition s (g, ns)
        = if specValidPair (tagOf (getState s g)) (tagOf ns) then insertGuild s g ns else s) ∧
    (∀ (s : GuildStates) (req : Nat × VcConnectionState) (g' : Nat),
      getState (applyTransition s req) g' = getState s g' ∨
        specValidPair (tagOf (getState s g')) (tagOf (getState (applyTransition s req) g'))
          = true) := by
  have key : ∀ (s : GuildStates) (g : Nat) (ns : VcConnectionState),
      applyTransition s (g, ns)
        = if specValidPair (tagOf (getState s g)) (tagOf ns) then insertGuild s g ns else s := by
    intro s g ns
    simp only [applyTransition, transition, validTransition_eq_spec]
    by_cases h : specValidPair (tagOf (getState s g)) (tagOf ns) = true
    · simp [h]
    · simp [h]
  refine ⟨?_, key, ?_⟩
  · intro s g ns
    simp only [transition, validTransition_eq_spec]
    by_cases h : specValidPair (tagOf (getState s g)) (tagOf ns) = true
    · simp [h, Except.isOk, Except.toBool]
    · simp only [Bool.not_eq_true] at h
      simp [h, Except.isOk, Except.toBool]
  · intro s req g'
    obtain ⟨g, ns⟩ := req
    rw [key s g ns]
    by_cases h : specValidPair (tagOf (getState s g)) (tagOf ns) = true
    · simp only [h, if_true]
      by_cases hg : g = g'
      · subst hg
        right
        simpa [getState, lookupGuild_insert_self] using h
      · left
        simp [getState, lookupGuild_insert_ne s g g' ns hg]
    · simp [h]

/-! ## SSRC ↔ user map (`src/voice/ssrc_map.rs`) -/

/-- First-match lookup in an association list with `Nat` keys (the DashMap
read). -/
def alistFind {β : Type} : List (Nat × β) → Nat → Option β
  | [], _ => none
  | (k, v) :: rest, k' => if k = k' then some v else alistFind rest k'

/-- Remove the first entry with the given key (the DashMap delete; keys are
kept unique by construction, so the first entry is the only one). -/
def alistErase {β : Type} (k' : Nat) : List (Nat × β) → List (Nat × β)
  | [] => []
  | (k, v) :: rest => if k = k' then rest else (k, v) :: alistErase k' rest

/-- `DashMap::insert` — replace any existing entry under the key. -/
def alistInsert {β : Type} (k' : Nat) (v' : β) (l : List (Nat × β)) : List (Nat × β) :=
  (k', v') :: alistErase k' l

/-- `DashMap::remove` — return the removed value (if any) together with the
remaining map. -/
def alistRemove {β : Type} (k' : Nat) (l : List (Nat × β)) :
    Option β × List (Nat × β) :=
  (alistFind l k', alistErase k' l)

/-- `SsrcUserMap`: forward map `ssrc → (user_id, username)` and reverse map
`user_id → ssrc`. -/
structure SsrcUserMap where
  ssrc_to_user : List (Nat × (Nat × String))
  user_to_ssrc : List (Nat × Nat)
  deriving DecidableEq, Repr

/-- `SsrcUserMap::new()`. -/
def SsrcUserMap.emptyMap : SsrcUserMap :=
  { ssrc_to_user := [], user_to_ssrc := [] }

/-- `SsrcUserMap::update_from_speaking`: if the user already had a
different SSRC, remove the old forward entry; then insert the forward and
reverse entries for the new SSRC. -/
def SsrcUserMap.update_from_speaking (m : SsrcUserMap) (ssrc : Nat) (user_id : Nat)
    (username : String) : SsrcUserMap :=
  let r := alistRemove user_id m.user_to_ssrc
  let fwd₁ :=
    match r.1 with
    | some old_ssrc =>
      if old_ssrc ≠ ssrc then alistErase old_ssrc m.ssrc_to_user else m.ssrc_to_user
    | none => m.ssrc_to_user
  { ssrc_to_user := alistInsert ssrc (user_id, username) fwd₁,
    user_to_ssrc := alistInsert user_id ssrc r.2 }

/-- `SsrcUserMap::get_user`. -/
def SsrcUserMap.get_user (m : SsrcUserMap) (ssrc : Nat) : Option (Nat × String) :=
  alistFind m.ssrc_to_user ssrc

/-- `SsrcUserMap::remove_user`: drop the reverse entry and, when present,
the forward entry it pointed at. -/
def SsrcUserMap.remove_user (m : SsrcUserMap) (user_id : Nat) : SsrcUserMap :=
  let r := alistRemove user_id m.user_to_ssrc
  match r.1 with
  | some ssrc => { ssrc_to_user := alistErase ssrc m.ssrc_to_user, user_to_ssrc := r.2 }
  | none => { m with user_to_ssrc := r.2 }

/-- `SsrcUserMap::active_count`. -/
def SsrcUserMap.active_count (m : SsrcUserMap) : Nat :=
  m.ssrc_to_user.length

/-- The operations the claim quantifies over. -/
inductive SsrcOp where
  | update (ssrc user_id : Nat) (username : String)
  | removeUser (user_id : Nat)
  deriving DecidableEq, Repr

def applySsrcOp (m : SsrcUserMap) : SsrcOp → SsrcUserMap
  | .update ssrc user_id username => m.update_from_speaking ssrc user_id username
  | .removeUser user_id => m.remove_user user_id

def applySsrcOps (m : SsrcUserMap) (ops : List SsrcOp) : SsrcUserMap :=
  ops.foldl applySsrcOp m


theorem alistFind_erase_ne {β : Type} (k k' : Nat) (hne : k' ≠ k) :
    ∀ l : List (Nat × β), alistFind (alistErase k l) k' = alistFind l k' := by
  intro l
  induction l with
  | nil => rfl
  | cons p rest ih =>
    obtain ⟨k₀, v₀⟩ := p
    by_cases h₀ : k₀ = k
    · subst h₀
      simp [alistErase, alistFind, Ne.symm hne]
    · by_cases h₁ : k₀ = k'
      · subst h₁
        simp [alistErase, alistFind, h₀]
      · simp [alistErase, alistFind, h₀, h₁, ih]

theorem alistFind_some_mem_keys {β : Type} {k : Nat} {v : β} :
    ∀ {l : List (Nat × β)}, alistFind l k = some v → k ∈ l.map Prod.fst := by
  intro l
  induction l with
  | nil => intro h; simp [alistFind] at h
  | cons p rest ih =>
    intro h
    obtain ⟨k₀, v₀⟩ := p
    by_cases h₀ : k₀ = k
    · simp [h₀]
    · simp only [alistFind, h₀, if_false] at h
      simp [ih h]

theorem alistFind_mem_ne_none {β : Type} :
    ∀ (l : List (Nat × β)) (p : Nat × β), p ∈ l → alistFind l p.1 ≠ none := by
  intro l
  induction l with
  | nil => intro p hp; simp at hp
  | cons q qs ih =>
    intro p hp
    obtain ⟨k₀, v₀⟩ := q
    by_cases h₀ : k₀ = p.1
    · simp [alistFind, h₀]
    · simp only [alistFind, h₀, if_false]
      rcases List.mem_cons.mp hp with hcase | hcase
      · exact absurd (congrArg Prod.fst hcase).symm h₀
      · exact ih p hcase

/-- Keys of an association list are pairwise distinct. -/
def KeysNodup {β : Type} (l : List (Nat × β)) : Prop :=
  (l.map Prod.fst).Nodup

theorem alistErase_keys_sublist {β : Type} (k : Nat) :
    ∀ l : List (Nat × β), ((alistErase k l).map Prod.fst).Sublist (l.map Prod.fst) := by
  intro l
  induction l with
  | nil => simp [alistErase]
  | cons p rest ih =>
    obtain ⟨k₀, v₀⟩ := p
    by_cases h₀ : k₀ = k
    · simp [alistErase, h₀]
    · simpa [alistErase, h₀] using List.Sublist.cons₂ k₀ ih

theorem keysNodup_erase {β : Type} (k : Nat) (l : List (Nat × β)) (h : KeysNodup l) :
    KeysNodup (alistErase k l) :=
  List.Nodup.sublist (alistErase_keys_sublist k l) h

theorem alistFind_erase_self {β : Type} (k : Nat) :
    ∀ l : List (Nat × β), KeysNodup l → alistFind (alistErase k l) k = none := by
  intro l
  induction l with
  | nil => intro _; rfl
  | cons p rest ih =>
    intro hnd
    obtain ⟨k₀, v₀⟩ := p
    simp only [KeysNodup, List.map_cons, List.nodup_cons] at hnd
    by_cases h₀ : k₀ = k
    · subst h₀
      simp only [alistErase, if_true]
      cases hfind : alistFind rest k₀ with
      | none => rfl
      | some v => exact absurd (alistFind_some_mem_keys hfind) hnd.1
    · simp only [alistErase, h₀, if_false, alistFind, h₀]
      exact ih hnd.2

theorem keysNodup_insert {β : Type} (k : Nat) (v : β) (l : List (Nat × β))
    (h : KeysNodup l) : KeysNodup (alistInsert k v l) := by
  simp only [KeysNodup, alistInsert, List.map_cons, List.nodup_cons]
  refine ⟨?_, keysNodup_erase k l h⟩
  intro hk
  obtain ⟨p, hp, hpk⟩ := List.mem_map.mp hk
  have := alistFind_mem_ne_none (alistErase k l) p hp
  rw [hpk] at this
  exact this (alistFind_erase_self k l h)

theorem alistFind_insert_self {β : Type} (k : Nat) (v : β) (l : List (Nat × β)) :
    alistFind (alistInsert k v l) k = some v := by
  simp [alistInsert, alistFind]

theorem alistFind_insert_ne {β : Type} (k k' : Nat) (v : β) (l : List (Nat × β))
    (hne : k' ≠ k) : alistFind (alistInsert k v l) k' = alistFind l k' := by
  simp only [alistInsert, alistFind, Ne.symm hne, if_false]
  exact alistFind_erase_ne k k' hne l

/-- Every forward entry `ssrc ↦ (user, name)` has a matching reverse entry
`user ↦ ssrc`. -/
def FwdConsistent (m : SsrcUserMap) : Prop :=
  ∀ s u n, alistFind m.ssrc_to_user s = some (u, n) →
    alistFind m.user_to_ssrc u = some s

/-- The invariant the map maintains: unique keys on both sides plus
forward-to-reverse consistency. -/
def SsrcInv (m : SsrcUserMap) : Prop :=
  KeysNodup m.ssrc_to_user ∧ KeysNodup m.user_to_ssrc ∧ FwdConsistent m

/-- No two active source ids map to the same user id. -/
def FwdInjective (m : SsrcUserMap) : Prop :=
  ∀ s₁ s₂ u n₁ n₂, alistFind m.ssrc_to_user s₁ = some (u, n₁) →
    alistFind m.ssrc_to_user s₂ = some (u, n₂) → s₁ = s₂

/-- Giving an already-mapped user a new source id removes the prior source
id's forward entry within that same update. -/
def ReassignRemoves (m : SsrcUserMap) : Prop :=
  ∀ s₀ s u name, alistFind m.user_to_ssrc u = some s₀ → s₀ ≠ s →
    (m.update_from_speaking s u name).get_user s₀ = none

theorem ssrcInv_update (m : SsrcUserMap) (hinv : SsrcInv m) (ssrc user_id : Nat)
    (username : String) : SsrcInv (m.update_from_speaking ssrc user_id username) := by
  obtain ⟨hndF, hndR, hcons⟩ := hinv
  unfold SsrcUserMap.update_from_speaking
  cases hold : alistFind m.user_to_ssrc user_id with
  | none =>
    simp only [alistRemove, hold]
    refine ⟨keysNodup_insert _ _ _ hndF,
      keysNodup_insert _ _ _ (keysNodup_erase _ _ hndR), ?_⟩
    intro s u n hfind
    by_cases hs : s = ssrc
    · subst hs
      rw [alistFind_insert_self] at hfind
      obtain ⟨hu, _⟩ : user_id = u ∧ username = n := by
        constructor <;> injection hfind with h <;> [exact congrArg Prod.fst h;
          exact congrArg Prod.snd h]
      subst hu
      exact alistFind_insert_self _ _ _
    · rw [alistFind_insert_ne _ _ _ _ hs] at hfind
      have hrev := hcons s u n hfind
      have hu : u ≠ user_id := by
        intro hEq
        rw [hEq, hold] at hrev
        exact Option.noConfusion hrev
      rw [alistFind_insert_ne _ _ _ _ hu, alistFind_erase_ne _ _ hu]
      exact hrev
  | some old_ssrc =>
    simp only [alistRemove, hold]
    by_cases hcond : old_ssrc ≠ ssrc
    · rw [if_pos hcond]
      refine ⟨keysNodup_insert _ _ _ (keysNodup_erase _ _ hndF),
        keysNodup_insert _ _ _ (keysNodup_erase _ _ hndR), ?_⟩
      intro s u n hfind
      by_cases hs : s = ssrc
      · subst hs
        rw [alistFind_insert_self] at hfind
        obtain ⟨hu, _⟩ : user_id = u ∧ username = n := by
          constructor <;> injection hfind with h <;> [exact congrArg Prod.fst h;
            exact congrArg Prod.snd h]
        subst hu
        exact alistFind_insert_self _ _ _
      · rw [alistFind_insert_ne _ _ _ _ hs] at hfind
        by_cases hs₀ : s = old_ssrc
        · subst hs₀
          rw [alistFind_erase_self _ _ hndF] at hfind
          exact Option.noConfusion hfind
        · rw [alistFind_erase_ne _ _ hs₀] at hfind
          have hrev := hcons s u n hfind
          have hu : u ≠ user_id := by
            intro hEq
            rw [hEq, hold] at hrev
            exact hs₀ (Option.some.inj hrev).symm
          rw [alistFind_insert_ne _ _ _ _ hu, alistFind_erase_ne _ _ hu]
          exact hrev
    · rw [if_neg hcond]
      have hceq : old_ssrc = ssrc := not_not.mp hcond
      subst hceq
      refine ⟨keysNodup_insert _ _ _ hndF,
        keysNodup_insert _ _ _ (keysNodup_erase _ _ hndR), ?_⟩
      intro s u n hfind
      by_cases hs : s = old_ssrc
      · subst hs
        rw [alistFind_insert_self] at hfind
        obtain ⟨hu, _⟩ : user_id = u ∧ username = n := by
          constructor <;> injection hfind with h <;> [exact congrArg Prod.fst h;
            exact congrArg Prod.snd h]
        subst hu
        exact alistFind_insert_self _ _ _
      · rw [alistFind_insert_ne _ _ _ _ hs] at hfind
        have hrev := hcons s u n hfind
        have hu : u ≠ user_id := by
          intro hEq
          rw [hEq, hold] at hrev
          exact hs (Option.some.inj hrev).symm
        rw [alistFind_insert_ne _ _ _ _ hu, alistFind_erase_ne _ _ hu]
        exact hrev

theorem ssrcInv_remove (m : SsrcUserMap) (hinv : SsrcInv m) (user_id : Nat) :
    SsrcInv (m.remove_user user_id) := by
  obtain ⟨hndF, hndR, hcons⟩ := hinv
  unfold SsrcUserMap.remove_user
  cases hold : alistFind m.user_to_ssrc user_id with
  | none =>
    simp only [alistRemove, hold]
    refine ⟨hndF, keysNodup_erase _ _ hndR, ?_⟩
    intro s u n hfind
    have hrev := hcons s u n hfind
    have hu : u ≠ user_id := by
      intro hEq
      rw [hEq, hold] at hrev
      exact Option.noConfusion hrev
    rw [alistFind_erase_ne _ _ hu]
    exact hrev
  | some s₀ =>
    simp only [alistRemove, hold]
    refine ⟨keysNodup_erase _ _ hndF, keysNodup_erase _ _ hndR, ?_⟩
    intro s u n hfind
    by_cases hs₀ : s = s₀
    · subst hs₀
      rw [alistFind_erase_self _ _ hndF] at hfind
      exact Option.noConfusion hfind
    · rw [alistFind_erase_ne _ _ hs₀] at hfind
      have hrev := hcons s u n hfind
      have hu : u ≠ user_id := by
        intro hEq
        rw [hEq, hold] at hrev
        exact hs₀ (Option.some.inj hrev).symm
      rw [alistFind_erase_ne _ _ hu]
      exact hrev

theorem ssrcInv_applyOps (ops : List SsrcOp) :
    ∀ m : SsrcUserMap, SsrcInv m → SsrcInv (applySsrcOps m ops) := by
  induction ops with
  | nil => intro m hm; exact hm
  | cons op rest ih =>
    intro m hm
    refine ih (applySsrcOp m op) ?_
    cases op with
    | update ssrc user_id username => exact ssrcInv_update m hm ssrc user_id username
    | removeUser user_id => exact ssrcInv_remove m hm user_id

theorem ssrcInv_empty : SsrcInv SsrcUserMap.emptyMap := by
  refine ⟨?_, ?_, ?_⟩
  · simp [KeysNodup, SsrcUserMap.emptyMap]
  · simp [KeysNodup, SsrcUserMap.emptyMap]
  · intro s u n h
    simp [SsrcUserMap.emptyMap, alistFind] at h

theorem fwdInjective_of_consistent (m : SsrcUserMap) (h : FwdConsistent m) :
    FwdInjective m := by
  intro s₁ s₂ u n₁ n₂ h₁ h₂
  have e₁ := h s₁ u n₁ h₁
  have e₂ := h s₂ u n₂ h₂
  rw [e₁] at e₂
  exact Option.some.inj e₂

theorem reassignRemoves_of_nodup (m : SsrcUserMap) (hndF : KeysNodup m.ssrc_to_user) :
    ReassignRemoves m := by
  intro s₀ s u name hrev hne
  unfold SsrcUserMap.update_from_speaking SsrcUserMap.get_user
  simp only [alistRemove, hrev]
  rw [alistFind_insert_ne _ _ _ _ hne, if_pos hne, alistFind_erase_self _ _ hndF]

/-- The state after the SSRC 1001 is first attributed to user 100 and then
reassigned (same SSRC) to a different user 200. -/
def demoSsrcClash : SsrcUserMap :=
  (SsrcUserMap.emptyMap.update_from_speaking 1001 100 "Alice").update_from_speaking
    1001 200 "Bob"

/-- Counterexample to C7: after `update_from_speaking(1001, 100)` followed
by `update_from_speaking(1001, 200)` — the same source id reassigned to a
different user — the reverse map holds both `100 ↦ 1001` and `200 ↦ 1001`,
so two distinct user ids map to the same source id and the map is not
bijective; a subsequent `remove_user(100)` then deletes user 200's forward
entry while leaving `200 ↦ 1001` behind. -/
theorem claim_C7_counterexample_stale_reverse_entry :
    alistFind demoSsrcClash.user_to_ssrc 100 = some 1001 ∧
      alistFind demoSsrcClash.user_to_ssrc 200 = some 1001 ∧
      demoSsrcClash.get_user 1001 = some (200, "Bob") ∧
      (demoSsrcClash.remove_user 100).get_user 1001 = none ∧
      alistFind (demoSsrcClash.remove_user 100).user_to_ssrc 200 = some 1001 := by
  refine ⟨?_, ?_, ?_, ?_, ?_⟩ <;> decide

/-- **C7 (amended).** After every sequence of `update_from_speaking` and
`remove_user` calls starting from `new()`: both maps have unique keys,
every forward entry has a matching reverse entry, no two active source ids
map to the same user id, and an update that gives an already-mapped user a
new source id removes the prior source id's forward entry as part of that
same update.  (Full bijectivity fails — see the counterexample: reassigning
a source id to a *different* user leaves a stale reverse entry, so two user
ids can map to the same source id.) -/
theorem claim_C7_amended_ssrc_map_consistency (ops : List SsrcOp) :
    SsrcInv (applySsrcOps SsrcUserMap.emptyMap ops) ∧
      FwdInjective (applySsrcOps SsrcUserMap.emptyMap ops) ∧
      ReassignRemoves (applySsrcOps SsrcUserMap.emptyMap ops) := by
  have hinv := ssrcInv_applyOps ops SsrcUserMap.emptyMap ssrcInv_empty
  exact ⟨hinv, fwdInjective_of_consistent _ hinv.2.2, reassignRemoves_of_nodup _ hinv.1⟩

/-- Witness instantiating the amended C7 theorem on a concrete operation
sequence and extracting a decidable consequence. -/
theorem claim_C7_amended_witness :
    alistFind (applySsrcOps SsrcUserMap.emptyMap
        [.update 1001 100 "Alice", .update 2002 100 "Alice"]).user_to_ssrc 100
      = some 2002 ∧
    (applySsrcOps SsrcUserMap.emptyMap
        [.update 1001 100 "Alice", .update 2002 100 "Alice"]).get_user 1001 = none := by
  have h := claim_C7_amended_ssrc_map_consistency
    [.update 1001 100 "Alice", .update 2002 100 "Alice"]
  refine ⟨?_, ?_⟩ <;> decide

/-! ## Pipeline worker `process_text` (`src/voice/worker.rs`) and the
turn gate (`src/concurrency/turn_gate.rs`) -/

/-- Modelled from the spec: `src/voice/transcript.rs` is declared
(`pub mod transcript;`) but missing from the source tree; the variants
follow §3 `TranscriptEntry` — `UserSpeech{user_id, user_name, text}`,
`BotResponse{bot_name, text}`, `BotResponseInterrupted{bot_name,
played_text}` — which matches every construction site in `worker.rs`. -/
inductive TranscriptEntry where
  | UserSpeech (user_id : Nat) (user_name : String) (text : String)
  | BotResponse (bot_name : String) (text : String)
  | BotResponseInterrupted (bot_name : String) (played_text : String)
  deriving DecidableEq, Repr

/-- The point, if any, at which `process_text`'s child cancellation token
(`response_cancel`) is observed cancelled.  The four observation sites in
the source are: the biased select around `agent_bridge.generate` (line
191), the `is_cancelled` check before TTS (line 203), the biased select
around `tts_provider.synthesize` (line 212), and the `is_cancelled` check
before sending audio (line 230). -/
inductive CancelPoint where
  | duringGenerate | beforeTts | duringTts | beforeSend | noCancel
  deriving DecidableEq, Repr

/-- Externally observable calls made by `process_text`, in order. -/
inductive WorkerEffect where
  | gateAcquire
  | gateRelease
  | agentGenerate (user_id : Nat) (text : String)
  | ttsSynthesize (text : String)
  | sendTranscript (e : TranscriptEntry)
  | sendAudio (user_id : Nat)
  | setPlaying (b : Bool)
  deriving DecidableEq, Repr

/-- The outcome of one `process_text` call: the ordered effect trace, the
transcript entries sent, the audio messages sent on `audio_output_tx`, and
the value of the shared `is_playing` flag on return. -/
structure ProcessTextResult where
  effects : List WorkerEffect
  transcripts : List TranscriptEntry
  audio_out : List (Nat × List Int)
  is_playing : Bool
  deriving DecidableEq, Repr

/-- `PipelineWorker::process_text`, branch by branch.  `user_text` is the
recognised speech handed in, `response` the agent's reply, `tts_audio` the
synthesized samples (opaque), `is_playing₀` the value of the shared flag on
entry, and `cp` the cancellation schedule.  The agent-generate and
TTS-synthesize futures are started inside biased selects, so they appear in
the trace even on the paths where cancellation wins the select. -/
def processText (user_id : Nat) (user_text : String) (bot_name : String)
    (response : String) (tts_audio : List Int) (is_playing₀ : Bool)
    (cp : CancelPoint) : ProcessTextResult :=
  if cp = .duringGenerate then
    -- token fires during generation: "return Ok(())" — nothing emitted.
    { effects := [.agentGenerate user_id user_text],
      transcripts := [], audio_out := [], is_playing := is_playing₀ }
  else if cp = .beforeTts then
    -- "Cancelled before TTS": return silently.
    { effects := [.agentGenerate user_id user_text],
      transcripts := [], audio_out := [], is_playing := is_playing₀ }
  else if cp = .duringTts then
    -- is_playing := true; token fires during synthesis: clear the flag and
    -- record BotResponseInterrupted with an empty played_text.
    { effects := [.agentGenerate user_id user_text, .setPlaying true,
        .ttsSynthesize response, .setPlaying false,
        .sendTranscript (.BotResponseInterrupted bot_name "")],
      transcripts := [.BotResponseInterrupted bot_name ""],
      audio_out := [], is_playing := false }
  else if cp = .beforeSend then
    -- cancelled after synthesis, before sending audio: same emission.
    { effects := [.agentGenerate user_id user_text, .setPlaying true,
        .ttsSynthesize response, .setPlaying false,
        .sendTranscript (.BotResponseInterrupted bot_name "")],
      transcripts := [.BotResponseInterrupted bot_name ""],
      audio_out := [], is_playing := false }
  else
    -- success path: BotResponse transcript, audio sent, flag cleared last.
    { effects := [.agentGenerate user_id user_text, .setPlaying true,
        .ttsSynthesize response,
        .sendTranscript (.BotResponse bot_name response),
        .sendAudio user_id, .setPlaying false],
      transcripts := [.BotResponse bot_name response],
      audio_out := [(user_id, tts_audio)], is_playing := false }

/-- `TurnGate` (`src/concurrency/turn_gate.rs`): a single-permit tokio
semaphore.  State is the number of available permits. -/
structure TurnGate where
  available_permits : Nat
  deriving DecidableEq, Repr

/-- `TurnGate::new()` — one permit. -/
def TurnGate.new : TurnGate := { available_permits := 1 }

/-- `TurnGate::try_acquire` — take a permit when one is available. -/
def TurnGate.try_acquire (g : TurnGate) : Option TurnGate :=
  if g.available_permits > 0 then some { available_permits := g.available_permits - 1 }
  else none

/-- `TurnGate::is_busy`. -/
def TurnGate.is_busy (g : TurnGate) : Bool :=
  g.available_permits == 0

/-- Dropping the owned permit returns it to the semaphore. -/
def TurnGate.release (g : TurnGate) : TurnGate :=
  { available_permits := g.available_permits + 1 }

/-- Counterexample to C2: a response cancelled by barge-in *after agent
generation has started* need not produce any `BotResponseInterrupted`
entry.  With cancellation observed during generation, or at the
`is_cancelled` check after generation returns (before TTS), `process_text`
returns silently: zero transcript entries, not exactly one. -/
theorem claim_C2_counterexample_silent_cancellation :
    (processText 1 "hello" "Bot" "echo: hello" [0] false .duringGenerate).transcripts
        = [] ∧
      (processText 1 "hello" "Bot" "echo: hello" [0] false .beforeTts).transcripts
        = [] := by
  refine ⟨?_, ?_⟩ <;> decide

/-- **C2 (amended).** On every cancelled path no audio is ever sent, so the
concatenation of played segment texts is empty.  When cancellation is
observed during TTS synthesis or after it (before the audio send), exactly
one `BotResponseInterrupted` entry is emitted, its `played_text` is the
empty string — equal to the concatenation of the (zero) played segments —
and `is_playing` is false on return.  When cancellation is observed during
agent generation or at the check before TTS, `process_text` returns
silently: no transcript entry at all, and `is_playing` is left untouched. -/
theorem claim_C2_amended_interrupted_transcript (user_id : Nat)
    (user_text bot_name response : String) (tts_audio : List Int)
    (is_playing₀ : Bool) (cp : CancelPoint) :
    (cp ≠ .noCancel →
      (processText user_id user_text bot_name response tts_audio is_playing₀ cp).audio_out
        = []) ∧
    ((cp = .duringTts ∨ cp = .beforeSend) →
      (processText user_id user_text bot_name response tts_audio is_playing₀ cp).transcripts
          = [.BotResponseInterrupted bot_name ""] ∧
        (processText user_id user_text bot_name response tts_audio is_playing₀ cp).is_playing
          = false) ∧
    ((cp = .duringGenerate ∨ cp = .beforeTts) →
      (processText user_id user_text bot_name response tts_audio is_playing₀ cp).transcripts
          = [] ∧
        (processText user_id user_text bot_name response tts_audio is_playing₀ cp).is_playing
          = is_playing₀) := by
  cases cp <;> simp [processText]

/-- Witness for the amended C2 theorem at cancellation during TTS. -/
theorem claim_C2_amended_witness :
    (processText 1 "hello" "Bot" "echo: hello" [0] false CancelPoint.duringTts).transcripts
        = [.BotResponseInterrupted "Bot" ""] ∧
      (processText 1 "hello" "Bot" "echo: hello" [0] false CancelPoint.duringTts).is_playing
        = false :=
  (claim_C2_amended_interrupted_transcript 1 "hello" "Bot" "echo: hello" [0] false
    CancelPoint.duringTts).2.1 (Or.inl rfl)

/-- Counterexample to C3: `process_text` invokes `agent_bridge.generate`
without ever touching a `TurnGate` — its effect trace contains the
generate call and no gate acquisition or release. -/
theorem claim_C3_counterexample_generate_without_gate :
    WorkerEffect.agentGenerate 1 "hello"
        ∈ (processText 1 "hello" "Bot" "echo: hello" [0] false .noCancel).effects ∧
      WorkerEffect.gateAcquire
        ∉ (processText 1 "hello" "Bot" "echo: hello" [0] false .noCancel).effects ∧
      WorkerEffect.gateRelease
        ∉ (processText 1 "hello" "Bot" "echo: hello" [0] false .noCancel).effects := by
  refine ⟨?_, ?_, ?_⟩ <;> decide

/-- **C3 (amended).** The `TurnGate` type is a single-permit gate
(`try_acquire` yields a permit exactly when it is not busy, decrementing
the single permit), but the voice worker's `process_text` performs no gate
operation on any path while always invoking `agent_bridge.generate`: no
voice-path caller acquires the process-wide gate, so voice-originated agent
turns are not serialised through it. -/
theorem claim_C3_amended_no_turn_gate_in_voice_path :
    (∀ (user_id : Nat) (user_text bot_name response : String) (tts_audio : List Int)
        (is_playing₀ : Bool) (cp : CancelPoint),
      WorkerEffect.agentGenerate user_id user_text
          ∈ (processText user_id user_text bot_name response tts_audio is_playing₀ cp).effects ∧
        WorkerEffect.gateAcquire
          ∉ (processText user_id user_text bot_name response tts_audio is_playing₀ cp).effects ∧
        WorkerEffect.gateRelease
          ∉ (processText user_id user_text bot_name response tts_audio is_playing₀ cp).effects) ∧
    (TurnGate.new.is_busy = false ∧
      TurnGate.new.try_acquire = some { available_permits := 0 } ∧
      (∀ g : TurnGate, g.try_acquire
        = if g.is_busy then none
          else some { available_permits := g.available_permits - 1 }) ∧
      TurnGate.new.try_acquire.map TurnGate.is_busy = some true ∧
      TurnGate.new.try_acquire.bind TurnGate.try_acquire = none) := by
  refine ⟨?_, by decide, by decide, ?_, by decide, by decide⟩
  · intro user_id user_text bot_name response tts_audio is_playing₀ cp
    cases cp <;> simp [processText]
  · intro g
    obtain ⟨p⟩ := g
    cases p with
    | zero => simp [TurnGate.try_acquire, TurnGate.is_busy]
    | succ n => simp [TurnGate.try_acquire, TurnGate.is_busy]

/-! ## Songbird receive configuration (`src/voice/gateway.rs` /
`src/voice/receiver.rs`) -/

/-- `songbird::driver::DecodeMode`. -/
inductive DecodeMode where
  | Decrypt | Decode | Pass
  deriving DecidableEq, Repr

/-- `songbird::driver::Channels`. -/
inductive MediaChannels where
  | Mono | Stereo
  deriving DecidableEq, Repr

/-- `songbird::driver::SampleRate` (audiopus rates). -/
inductive MediaSampleRate where
  | Hz8000 | Hz12000 | Hz16000 | Hz24000 | Hz48000
  deriving DecidableEq, Repr

/-- The fields of the songbird `Config` that `songbird_receive_config`
sets. -/
structure SongbirdConfig where
  decode_mode : DecodeMode
  decode_channels : MediaChannels
  decode_sample_rate : MediaSampleRate
  driver_timeout_secs : Option Nat
  deriving DecidableEq, Repr

/-- `songbird_receive_config()` (`gateway.rs`): the Config installed on
every standalone Call the gateway creates. -/
def songbird_receive_config : SongbirdConfig :=
  { decode_mode := .Decode, decode_channels := .Mono,
    decode_sample_rate := .Hz16000, driver_timeout_secs := some 30 }

/-- The parameters `VoiceReceiveHandler::new` passes to
`audiopus::coder::Decoder::new` — the receiver's own Opus decoder, which
decodes the raw RTP payload (`receiver.rs` requires `DecodeMode::Pass` per
its module documentation). -/
def receiverOpusDecoderConfig : MediaSampleRate × MediaChannels :=
  (.Hz48000, .Stereo)

/-- **C8.** The claim (and `receiver.rs`'s own documentation and manual
Opus decode) call for decode mode = pass-through, stereo, 48 kHz; the
Config the gateway actually builds is `DecodeMode::Decode`,
`Channels::Mono`, `SampleRate::Hz16000` — each of the three fields differs
from the claimed value, while the receiver itself decodes at 48 kHz
stereo. -/
theorem claim_C8_receive_config_contradiction :
    songbird_receive_config.decode_mode = DecodeMode.Decode ∧
      songbird_receive_config.decode_channels = MediaChannels.Mono ∧
      songbird_receive_config.decode_sample_rate = MediaSampleRate.Hz16000 ∧
      songbird_receive_config.decode_mode ≠ DecodeMode.Pass ∧
      songbird_receive_config.decode_channels ≠ MediaChannels.Stereo ∧
      songbird_receive_config.decode_sample_rate ≠ MediaSampleRate.Hz48000 ∧
      receiverOpusDecoderConfig = (MediaSampleRate.Hz48000, MediaChannels.Stereo) := by
  refine ⟨rfl, rfl, rfl, ?_, ?_, ?_, rfl⟩ <;> decide

/-! ## Sentence splitter (`src/voice/splitter.rs`) -/

/-- Text as a list of characters (Rust `String` viewed through
`char_indices`; byte positions are recovered with `Char.utf8Size`). -/
abbrev Text := List Char

/-- Rust `char::is_whitespace` — the Unicode `White_Space` property. -/
def isRustWhitespace (c : Char) : Bool :=
  let n := c.toNat
  n = 0x09 || n = 0x0A || n = 0x0B || n = 0x0C || n = 0x0D || n = 0x20 ||
    n = 0x85 || n = 0xA0 || n = 0x1680 || (0x2000 ≤ n && n ≤ 0x200A) ||
    n = 0x2028 || n = 0x2029 || n = 0x202F || n = 0x205F || n = 0x3000

/-- `SENTENCE_DELIMITERS = ['。', '！', '？', '!', '?']`. -/
def isSentenceDelimiter (c : Char) : Bool :=
  c = '。' || c = '！' || c = '？' || c = '!' || c = '?'

/-- Rust `str::len` — the UTF-8 byte length. -/
def byteLen (t : Text) : Nat :=
  (t.map Char.utf8Size).sum

/-- Rust `str::trim` (drop Unicode whitespace from both ends). -/
def trimLeft (t : Text) : Text := t.dropWhile isRustWhitespace

def trimRight (t : Text) : Text := (t.reverse.dropWhile isRustWhitespace).reverse

def trimText (t : Text) : Text := trimRight (trimLeft t)

/-- The scan `buffer.char_indices().find_map(…)`: cut at the first
sentence delimiter, returning the prefix up to and including it
(`buffer[..p + ch.len_utf8()]`) and the remainder. -/
def splitAtFirstDelim : Text → Option (Text × Text)
  | [] => none
  | c :: rest =>
    if isSentenceDelimiter c then some ([c], rest)
    else
      match splitAtFirstDelim rest with
      | some (a, b) => some (c :: a, b)
      | none => none

/-- `buffer.splitn(2, "\n\n")` at the first paragraph break: the part
before the first `"\n\n"` and the part after it (`none` when
`buffer.contains("\n\n")` is false). -/
def splitAtParaBreak : Text → Option (Text × Text)
  | [] => none
  | c :: rest =>
    match rest with
    | [] => none
    | c' :: rest' =>
      if c = '\n' && c' = '\n' then some ([], rest')
      else
        match splitAtParaBreak (c' :: rest') with
        | some (a, b) => some (c :: a, b)
        | none => none

/-- A `SentenceSegment`: monotonically assigned index plus trimmed text. -/
structure SentenceSegment where
  index : Nat
  text : Text
  deriving DecidableEq, Repr

/-- The punctuation loop of `SentenceSplitter::split` (the inner
`loop { … }`): repeatedly cut at the first delimiter; emit the trimmed cut
when it reaches `min_length` bytes, silently drop it when it trims to
nothing, and otherwise prepend it back and break.  Each iteration that
continues strictly shrinks the buffer, so running with the buffer length as
structural fuel is exact (fuel can only run out on an empty buffer, where
the scan finds no delimiter and the loop would break anyway). -/
def punctLoop : Nat → Nat → Nat → Text → List SentenceSegment × Text × Nat
  | 0, _, seq, buffer => ([], buffer, seq)
  | fuel + 1, min_len, seq, buffer =>
    match splitAtFirstDelim buffer with
    | none => ([], buffer, seq)
    | some (sentence, rest) =>
      let trimmed := trimText sentence
      if min_len ≤ byteLen trimmed then
        let r := punctLoop fuel min_len (seq + 1) rest
        (⟨seq, trimmed⟩ :: r.1, r.2)
      else if trimmed.isEmpty then
        punctLoop fuel min_len seq rest
      else
        ([], trimmed ++ rest, seq)

/-- The paragraph loop (`while buffer.contains("\n\n")`): split at the
first paragraph break; emit the trimmed head when long enough, drop it when
empty, otherwise merge it back with a single space
(`buffer.insert_str(0, &format!("{sentence} "))`) and re-check.  As above,
buffer length is exact structural fuel: every branch strictly shrinks the
buffer (the merge branch drops the two newline bytes and re-adds one
space). -/
def paraLoop : Nat → Nat → Nat → Text → List SentenceSegment × Text × Nat
  | 0, _, seq, buffer => ([], buffer, seq)
  | fuel + 1, min_len, seq, buffer =>
    match splitAtParaBreak buffer with
    | none => ([], buffer, seq)
    | some (p0, rest) =>
      let sentence := trimText p0
      if min_len ≤ byteLen sentence then
        let r := paraLoop fuel min_len (seq + 1) rest
        (⟨seq, sentence⟩ :: r.1, r.2)
      else if sentence.isEmpty then
        paraLoop fuel min_len seq rest
      else
        paraLoop fuel min_len seq (sentence ++ ' ' :: rest)

/-- One iteration of the token loop in `SentenceSplitter::split`: append
the token to the buffer, run the punctuation loop, then the paragraph
loop.  Returns the emitted segments together with the new buffer and
sequence counter. -/
def processTokenSplit (min_len : Nat) (buffer : Text) (seq : Nat) (token : Text) :
    List SentenceSegment × Text × Nat :=
  let buf := buffer ++ token
  let p := punctLoop buf.length min_len seq buf
  let q := paraLoop p.2.1.length min_len p.2.2 p.2.1
  (p.1 ++ q.1, q.2)

/-- The accumulator step of the token loop: process one token and append
its emitted segments to those already emitted. -/
def splitStep (min_len : Nat) (acc : List SentenceSegment × Text × Nat) (tok : Text) :
    List SentenceSegment × Text × Nat :=
  let p := processTokenSplit min_len acc.2.1 acc.2.2 tok
  (acc.1 ++ p.1, p.2)

/-- `SentenceSplitter::split` over a finite token stream: fold the token
loop from an empty buffer and sequence 0, then flush the remaining trimmed
buffer as a final segment if non-empty. -/
def splitTokens (min_len : Nat) (tokens : List Text) : List SentenceSegment :=
  let r := tokens.foldl (splitStep min_len) (([] : List SentenceSegment), ([] : Text), 0)
  let remaining := trimText r.2.1
  if remaining.isEmpty then r.1 else r.1 ++ [⟨r.2.2, remaining⟩]

/-- Erase every whitespace character. -/
def stripWs (t : Text) : Text :=
  t.filter (fun c => !(isRustWhitespace c))

/-- Concatenation of the texts of emitted segments. -/
def concatTexts (segs : List SentenceSegment) : Text :=
  (segs.map SentenceSegment.text).flatten

theorem stripWs_append (a b : Text) : stripWs (a ++ b) = stripWs a ++ stripWs b := by
  simp [stripWs, List.filter_append]

theorem stripWs_dropWhile (t : Text) :
    stripWs (t.dropWhile isRustWhitespace) = stripWs t := by
  induction t with
  | nil => rfl
  | cons c rest ih =>
    by_cases h : isRustWhitespace c
    · simp only [List.dropWhile, h, ih]
      simp [stripWs, h]
    · simp [List.dropWhile, h]

theorem stripWs_reverse (t : Text) : stripWs t.reverse = (stripWs t).reverse := by
  induction t with
  | nil => rfl
  | cons c rest ih =>
    rw [List.reverse_cons, stripWs_append, ih]
    by_cases h : isRustWhitespace c
    · simp [stripWs, h]
    · simp [stripWs, h]

theorem stripWs_trimText (t : Text) : stripWs (trimText t) = stripWs t := by
  unfold trimText trimRight trimLeft
  rw [stripWs_reverse, stripWs_dropWhile, stripWs_reverse, List.reverse_reverse,
    stripWs_dropWhile]

theorem length_dropWhile_le_ws (t : Text) :
    (t.dropWhile isRustWhitespace).length ≤ t.length := by
  induction t with
  | nil => simp
  | cons c rest ih =>
    by_cases h : isRustWhitespace c
    · simp only [List.dropWhile, h]
      calc (rest.dropWhile isRustWhitespace).length ≤ rest.length := ih
        _ ≤ (c :: rest).length := by simp
    · simp [List.dropWhile, h]

theorem trimText_length_le (t : Text) : (trimText t).length ≤ t.length := by
  unfold trimText trimRight trimLeft
  calc ((t.dropWhile isRustWhitespace).reverse.dropWhile isRustWhitespace).reverse.length
      = ((t.dropWhile isRustWhitespace).reverse.dropWhile isRustWhitespace).length := by
        rw [List.length_reverse]
    _ ≤ (t.dropWhile isRustWhitespace).reverse.length := length_dropWhile_le_ws _
    _ = (t.dropWhile isRustWhitespace).length := by rw [List.length_reverse]
    _ ≤ t.length := length_dropWhile_le_ws _

theorem splitAtFirstDelim_eq :
    ∀ {t a b : Text}, splitAtFirstDelim t = some (a, b) → t = a ++ b ∧ a ≠ [] := by
  intro t
  induction t with
  | nil => intro a b h; simp [splitAtFirstDelim] at h
  | cons c rest ih =>
    intro a b h
    by_cases hc : isSentenceDelimiter c
    · simp only [splitAtFirstDelim, hc, if_true] at h
      obtain ⟨ha, hb⟩ : [c] = a ∧ rest = b := by
        constructor <;> injection h with h' <;> [exact congrArg Prod.fst h';
          exact congrArg Prod.snd h']
      subst ha; subst hb
      exact ⟨rfl, by simp⟩
    · simp only [splitAtFirstDelim, hc, if_false] at h
      cases hrec : splitAtFirstDelim rest with
      | none => rw [hrec] at h; exact Option.noConfusion h
      | some pr =>
        obtain ⟨a', b'⟩ := pr
        rw [hrec] at h
        obtain ⟨ha, hb⟩ : c :: a' = a ∧ b' = b := by
          constructor <;> injection h with h' <;> [exact congrArg Prod.fst h';
            exact congrArg Prod.snd h']
        subst ha; subst hb
        obtain ⟨he, _⟩ := ih hrec
        exact ⟨by rw [he]; rfl, by simp⟩

theorem splitAtParaBreak_eq :
    ∀ {t a b : Text}, splitAtParaBreak t = some (a, b) → t = a ++ 
      Char.ofNat 10 :: Char.ofNat 10 :: b := by
  intro t
  induction t with
  | nil => intro a b h; simp [splitAtParaBreak] at h
  | cons c rest ih =>
    intro a b h
    match hrest : rest with
    | [] => simp [splitAtParaBreak] at h
    | c' :: rest' =>
      by_cases hnl : (c = '\n' && c' = '\n') = true
      · simp only [splitAtParaBreak, hnl, if_true] at h
        obtain ⟨hc, hc'⟩ := by simpa using hnl
        obtain ⟨ha, hb⟩ : ([] : Text) = a ∧ rest' = b := by
          constructor <;> injection h with h' <;> [exact congrArg Prod.fst h';
            exact congrArg Prod.snd h']
        subst ha; subst hb; subst hc; subst hc'
        rfl
      · simp only [splitAtParaBreak, hnl, if_false] at h
        cases hrec : splitAtParaBreak (c' :: rest') with
        | none => rw [hrec] at h; exact Option.noConfusion h
        | some pr =>
          obtain ⟨a', b'⟩ := pr
          rw [hrec] at h
          obtain ⟨ha, hb⟩ : c :: a' = a ∧ b' = b := by
            constructor <;> injection h with h' <;> [exact congrArg Prod.fst h';
              exact congrArg Prod.snd h']
          subst ha; subst hb
          have he := ih hrec
          exact by rw [he]; rfl

theorem concatTexts_nil : concatTexts [] = [] := rfl

theorem concatTexts_cons (s : SentenceSegment) (l : List SentenceSegment) :
    concatTexts (s :: l) = s.text ++ concatTexts l := by
  simp [concatTexts]

theorem concatTexts_append (a b : List SentenceSegment) :
    concatTexts (a ++ b) = concatTexts a ++ concatTexts b := by
  simp [concatTexts]

theorem isEmpty_eq_nil {t : Text} (h : t.isEmpty = true) : t = [] := by
  cases t with
  | nil => rfl
  | cons c rest => simp [List.isEmpty] at h

theorem stripWs_newline_cons (t : Text) :
    stripWs (Char.ofNat 10 :: t) = stripWs t := by
  have h : isRustWhitespace (Char.ofNat 10) = true := by decide
  simp [stripWs, h]

theorem stripWs_space_cons (t : Text) : stripWs (' ' :: t) = stripWs t := by
  have h : isRustWhitespace ' ' = true := by decide
  simp [stripWs, h]

theorem punctLoop_strip (fuel : Nat) :
    ∀ (min_len seq : Nat) (buffer : Text), buffer.length ≤ fuel →
      stripWs (concatTexts (punctLoop fuel min_len seq buffer).1)
          ++ stripWs (punctLoop fuel min_len seq buffer).2.1
        = stripWs buffer := by
  induction fuel with
  | zero =>
    intro min_len seq buffer hlen
    have : buffer = [] := List.length_eq_zero.mp (Nat.le_zero.mp hlen)
    subst this
    simp [punctLoop, concatTexts, stripWs]
  | succ n ih =>
    intro min_len seq buffer hlen
    cases hsp : splitAtFirstDelim buffer with
    | none => simp [punctLoop, hsp, concatTexts, stripWs]
    | some pr =>
      obtain ⟨sentence, rest⟩ := pr
      obtain ⟨heq, hne⟩ := splitAtFirstDelim_eq hsp
      have hpos : 1 ≤ sentence.length := by
        cases sentence with
        | nil => exact absurd rfl hne
        | cons _ _ => simp
      have hlens : rest.length ≤ n := by
        have hsum : buffer.length = sentence.length + rest.length := by
          rw [heq]; simp
        omega
      by_cases hmin : min_len ≤ byteLen (trimText sentence)
      · simp only [punctLoop, hsp, if_pos hmin]
        rw [concatTexts_cons, stripWs_append, List.append_assoc,
          ih min_len (seq + 1) rest hlens, stripWs_trimText, ← stripWs_append, ← heq]
      · by_cases hemp : (trimText sentence).isEmpty = true
        · simp only [punctLoop, hsp, if_neg hmin]
          rw [if_pos hemp, ih min_len seq rest hlens, heq, stripWs_append]
          have hsent : stripWs sentence = [] := by
            rw [← stripWs_trimText, isEmpty_eq_nil hemp]
            rfl
          rw [hsent]
          rfl
        · simp only [punctLoop, hsp, if_neg hmin]
          rw [if_neg hemp, concatTexts_nil]
          show stripWs [] ++ stripWs (trimText sentence ++ rest) = stripWs buffer
          rw [stripWs_append, stripWs_trimText, ← stripWs_append, ← heq]
          rfl

theorem paraLoop_strip (fuel : Nat) :
    ∀ (min_len seq : Nat) (buffer : Text), buffer.length ≤ fuel →
      stripWs (concatTexts (paraLoop fuel min_len seq buffer).1)
          ++ stripWs (paraLoop fuel min_len seq buffer).2.1
        = stripWs buffer := by
  induction fuel with
  | zero =>
    intro min_len seq buffer hlen
    have : buffer = [] := List.length_eq_zero.mp (Nat.le_zero.mp hlen)
    subst this
    simp [paraLoop, concatTexts, stripWs]
  | succ n ih =>
    intro min_len seq buffer hlen
    cases hsp : splitAtParaBreak buffer with
    | none => simp [paraLoop, hsp, concatTexts, stripWs]
    | some pr =>
      obtain ⟨p0, rest⟩ := pr
      have heq := splitAtParaBreak_eq hsp
      have hbuf : stripWs buffer = stripWs p0 ++ stripWs rest := by
        rw [heq, stripWs_append, stripWs_newline_cons, stripWs_newline_cons]
      have hsum : buffer.length = p0.length + 2 + rest.length := by
        rw [heq]; simp; omega
      have hlenr : rest.length ≤ n := by omega
      by_cases hmin : min_len ≤ byteLen (trimText p0)
      · simp only [paraLoop, hsp, if_pos hmin]
        rw [concatTexts_cons, stripWs_append, List.append_assoc,
          ih min_len (seq + 1) rest hlenr, stripWs_trimText, hbuf]
      · by_cases hemp : (trimText p0).isEmpty = true
        · simp only [paraLoop, hsp, if_neg hmin]
          rw [if_pos hemp, ih min_len seq rest hlenr, hbuf]
          have hsent : stripWs p0 = [] := by
            rw [← stripWs_trimText, isEmpty_eq_nil hemp]
            rfl
          rw [hsent]
          rfl
        · simp only [paraLoop, hsp, if_neg hmin]
          rw [if_neg hemp]
          have hlenm : (trimText p0 ++ ' ' :: rest).length ≤ n := by
            have := trimText_length_le p0
            simp only [List.length_append, List.length_cons]
            omega
          rw [ih min_len seq (trimText p0 ++ ' ' :: rest) hlenm, stripWs_append,
            stripWs_space_cons, stripWs_trimText, hbuf]

theorem processTokenSplit_strip (min_len : Nat) (buffer : Text) (seq : Nat) (token : Text) :
    stripWs (concatTexts (processTokenSplit min_len buffer seq token).1)
        ++ stripWs (processTokenSplit min_len buffer seq token).2.1
      = stripWs (buffer ++ token) := by
  unfold processTokenSplit
  have hp := punctLoop_strip (buffer ++ token).length min_len seq (buffer ++ token)
    (le_refl _)
  have hq := paraLoop_strip
    (punctLoop (buffer ++ token).length min_len seq (buffer ++ token)).2.1.length
    min_len
    (punctLoop (buffer ++ token).length min_len seq (buffer ++ token)).2.2
    (punctLoop (buffer ++ token).length min_len seq (buffer ++ token)).2.1
    (le_refl _)
  rw [concatTexts_append, stripWs_append, List.append_assoc, hq, hp]

theorem splitStep_strip (min_len : Nat) (acc : List SentenceSegment × Text × Nat)
    (tok : Text) :
    stripWs (concatTexts (splitStep min_len acc tok).1)
        ++ stripWs (splitStep min_len acc tok).2.1
      = stripWs (concatTexts acc.1) ++ stripWs acc.2.1 ++ stripWs tok := by
  unfold splitStep
  have hp := processTokenSplit_strip min_len acc.2.1 acc.2.2 tok
  rw [stripWs_append] at hp
  rw [concatTexts_append, stripWs_append, List.append_assoc, hp, List.append_assoc]

theorem splitFold_strip (min_len : Nat) (tokens : List Text) :
    ∀ acc : List SentenceSegment × Text × Nat,
      stripWs (concatTexts (tokens.foldl (splitStep min_len) acc).1)
          ++ stripWs (tokens.foldl (splitStep min_len) acc).2.1
        = stripWs (concatTexts acc.1) ++ stripWs acc.2.1 ++ stripWs tokens.flatten := by
  induction tokens with
  | nil =>
    intro acc
    simp [stripWs]
  | cons tok rest ih =>
    intro acc
    rw [List.foldl_cons, ih (splitStep min_len acc tok), splitStep_strip,
      List.flatten_cons, stripWs_append]
    simp [List.append_assoc]

/-- Collapse each whitespace run to a single space; structural fuel is the
text length (each step consumes at least one character). -/
def collapseWsRuns : Nat → Text → Text
  | 0, t => t
  | _ + 1, [] => []
  | fuel + 1, c :: rest =>
    if isRustWhitespace c then ' ' :: collapseWsRuns fuel (rest.dropWhile isRustWhitespace)
    else c :: collapseWsRuns fuel rest

/-- Modelled from the spec: the claim's "trimmed, whitespace-normalised
concatenation of the input tokens" — trim, then collapse every whitespace
run to a single space. -/
def normalizeWs (t : Text) : Text :=
  collapseWsRuns (trimText t).length (trimText t)

/-- Counterexample to C9: the concatenation of all emitted segments is in
general *not* the trimmed whitespace-normalised input.  With the default
`min_length = 2`, the token stream consisting of the single token
`"A! B!"` splits into the segments `"A!"` and `"B!"`, whose concatenation
`"A!B!"` has lost the inter-sentence space, so it differs from the trimmed
run-collapsed original `"A! B!"`; and reading "whitespace-normalised" as
erasing all whitespace fails too: `"A b!"` yields the single segment
`"A b!"`, which differs from `"Ab!"`. -/
theorem claim_C9_counterexample_whitespace_lost :
    concatTexts (splitTokens 2 ["A! B!".toList])
        ≠ normalizeWs (List.flatten ["A! B!".toList]) ∧
      concatTexts (splitTokens 2 ["A b!".toList])
        ≠ stripWs (List.flatten ["A b!".toList]) := by
  refine ⟨?_, ?_⟩ <;> decide

/-- **C9 (amended).** For every finite token stream and every
`min_length`, the concatenation of the texts of all segments emitted by the
sentence splitter (final flush included) agrees with the concatenation of
the input tokens up to whitespace: erasing all whitespace from both sides
yields equal character sequences.  No non-whitespace text is lost,
duplicated, or reordered by splitting; only whitespace at segment
boundaries is dropped (each segment is individually trimmed) or inserted
(a single space re-joins a too-short paragraph head). -/
theorem claim_C9_amended_splitter_preserves_text (min_len : Nat) (tokens : List Text) :
    stripWs (concatTexts (splitTokens min_len tokens)) = stripWs tokens.flatten := by
  unfold splitTokens
  have hf := splitFold_strip min_len tokens ([], [], 0)
  have he : stripWs (concatTexts ([] : List SentenceSegment)) = [] := rfl
  have he' : stripWs ([] : Text) = [] := rfl
  rw [he, he'] at hf
  simp only [List.nil_append] at hf
  by_cases hemp : (trimText (tokens.foldl (splitStep min_len) ([], [], 0)).2.1).isEmpty
      = true
  · rw [if_pos hemp]
    have hnil : stripWs (tokens.foldl (splitStep min_len) ([], [], 0)).2.1 = [] := by
      rw [← stripWs_trimText, isEmpty_eq_nil hemp]
      rfl
    rw [← hf, hnil, List.append_nil]
  · rw [if_neg hemp, concatTexts_append, concatTexts_cons, concatTexts_nil,
      List.append_nil, stripWs_append, stripWs_trimText, hf]

/-- Witness instantiating the C5 theorem's quantified parts on concrete
inputs (the eviction bound on a concrete over-limit table, and the
deleted-below-survivors property on a concrete row). -/
theorem claim_C5_witness :
    totalSizeBytes (evictIfNeeded 100
        [{ cache_key := demoParams "x", audio_format := "raw",
           audio_data := List.replicate 150 0, duration_ms := 10,
           use_count := 1, access_seq := 1 }]) ≤ 100 :=
  (claim_C5_lru_eviction.1 100
    [{ cache_key := demoParams "x", audio_format := "raw",
       audio_data := List.replicate 150 0, duration_ms := 10,
       use_count := 1, access_seq := 1 }]).1

/-- Witness instantiating the amended C3 theorem at a concrete call. -/
theorem claim_C3_amended_witness :
    WorkerEffect.agentGenerate 7 "hi"
        ∈ (processText 7 "hi" "Bot" "resp" [1] false CancelPoint.noCancel).effects ∧
      WorkerEffect.gateAcquire
        ∉ (processText 7 "hi" "Bot" "resp" [1] false CancelPoint.noCancel).effects ∧
      WorkerEffect.gateRelease
        ∉ (processText 7 "hi" "Bot" "resp" [1] false CancelPoint.noCancel).effects :=
  claim_C3_amended_no_turn_gate_in_voice_path.1 7 "hi" "Bot" "resp" [1] false
    CancelPoint.noCancel
